import Mathlib

/-!
Verification of the temporal index-membership tracker of the findata
repository (src/findata/data/database/index_db.py together with the
schema in src/findata/data/database/schema.py).

The embedding models the two SQLite tables as Lean lists of records and
each method of IndexDB as a pure function over that state.  Dates and
timestamps are modelled as natural numbers (ISO date strings compare in
the same order as their chronological order, so the SQL comparisons on
date columns become comparisons on Nat).  The sqlite3 connection used as
a context manager in update_constituents commits on normal exit and rolls
back on an exception; this is modelled by a Conn record holding the
committed state and the pending (in-transaction) state.
-/

namespace Findata

/-! ## Definitions: the embedded data model and operations -/

/-- Row of the indices table (schema.py, INDICES_SCHEMA). -/
structure IndexRow where
  index_id : Nat
  index_code : String
  index_name : String
  description : String
  country : String
  data_source : String
  asset_class : String
  last_updated : Option Nat
deriving DecidableEq

/-- Row of the index_constituents table (schema.py, INDEX_CONSTITUENTS_SCHEMA). -/
structure ConstituentRow where
  constituent_id : Nat
  index_id : Nat
  symbol : String
  effective_date : Nat
  end_date : Option Nat
  company_name : Option String
  sector : Option String
  sub_industry : Option String
  date_added_to_index : Option Nat
  extracted_at : Nat
  data_source : String
deriving DecidableEq

/-- One row of the constituents DataFrame handed to update_constituents:
the symbol plus the descriptive fields read via row.get in the insert loop,
and the optional source tag read from the first row. -/
structure SnapshotRow where
  symbol : String
  company_name : Option String
  sector : Option String
  sub_industry : Option String
  date_added_to_index : Option Nat
  source : Option String
deriving DecidableEq

/-- The whole SQLite database state relevant to IndexDB, plus the
autoincrement counters of the two tables. -/
structure DBState where
  indices : List IndexRow
  constituents : List ConstituentRow
  next_index_id : Nat
  next_constituent_id : Nat
deriving DecidableEq

/-- A fresh database as created by schema.py: both tables empty,
autoincrement counters starting at 1. -/
def emptyState : DBState :=
  { indices := [], constituents := [], next_index_id := 1, next_constituent_id := 1 }

/-- Summary dictionary returned by IndexDB.update_constituents. -/
structure ChangeSummary where
  added_count : Nat
  removed_count : Nat
  unchanged_count : Nat
  added_symbols : List String
  removed_symbols : List String
deriving DecidableEq

/-- Errors raised by IndexDB.  The code raises DatabaseError everywhere;
the constructor notRegistered stands for the raise at the start of
update_constituents with message "Index ... not registered" (a raise site
distinguishable by its message), and storeError for a DatabaseError
wrapping an sqlite3.Error from the storage layer. -/
inductive DbErr where
  | notRegistered (index_code : String)
  | storeError
deriving DecidableEq

instance {ε α : Type} [DecidableEq ε] [DecidableEq α] :
    DecidableEq (Except ε α) := fun x y =>
  match x, y with
  | Except.error a, Except.error b =>
    match decEq a b with
    | isTrue h => isTrue (by rw [h])
    | isFalse h => isFalse (fun hc => h (by injection hc))
  | Except.error _, Except.ok _ => isFalse (fun hc => by injection hc)
  | Except.ok _, Except.error _ => isFalse (fun hc => by injection hc)
  | Except.ok a, Except.ok b =>
    match decEq a b with
    | isTrue h => isTrue (by rw [h])
    | isFalse h => isFalse (fun hc => h (by injection hc))

/-- Insert an element into a list sorted by the Boolean relation le. -/
def insertSorted (le : α → α → Bool) (a : α) : List α → List α
  | [] => [a]
  | b :: bs => if le a b then a :: b :: bs else b :: insertSorted le a bs

/-- Insertion sort by the Boolean relation le. -/
def sortOn (le : α → α → Bool) : List α → List α
  | [] => []
  | a :: as => insertSorted le a (sortOn le as)

def firstRowsAux (seen : List String) : List SnapshotRow → List SnapshotRow
  | [] => []
  | r :: rs =>
    if r.symbol ∈ seen then firstRowsAux seen rs
    else r :: firstRowsAux (r.symbol :: seen) rs

def firstRowPerSymbol (l : List SnapshotRow) : List SnapshotRow :=
  firstRowsAux [] l

/-- String comparison as used by sorted(...) and SQL ORDER BY: the
lexicographic order on the character lists (a le b iff not b < a). -/
def strLe (a b : String) : Bool := !decide (b.data < a.data)

/-- Comparison of constituent rows by symbol (ORDER BY c.symbol). -/
def symLe (a b : ConstituentRow) : Bool := strLe a.symbol b.symbol

/-- IndexDB.get_index_id: SELECT index_id FROM indices WHERE index_code = ?
(fetchone returns the first matching row). -/
def get_index_id (s : DBState) (code : String) : Option Nat :=
  (s.indices.find? (fun i => i.index_code == code)).map (fun i => i.index_id)

/-- The JOIN condition of the constituent queries: there is an indices row
i with i.index_id = c.index_id and i.index_code = code. -/
def joinedByCode (inds : List IndexRow) (code : String) (c : ConstituentRow) : Bool :=
  inds.any (fun i => i.index_id == c.index_id && i.index_code == code)

/-- IndexDB.register_index: update the descriptive fields and last_updated of
an existing row with this index_code, or insert a new row.  Returns the new
state together with the index_id. -/
def register_index (s : DBState) (code name desc country ds ac : String)
    (now : Nat) : DBState × Nat :=
  match s.indices.find? (fun i => i.index_code == code) with
  | some i =>
    ({ s with indices := s.indices.map (fun j =>
        if j.index_id = i.index_id then
          { j with index_name := name, description := desc, country := country,
                   data_source := ds, asset_class := ac, last_updated := some now }
        else j) }, i.index_id)
  | none =>
    ({ s with
        indices := s.indices ++
          [{ index_id := s.next_index_id, index_code := code, index_name := name,
             description := desc, country := country, data_source := ds,
             asset_class := ac, last_updated := none }],
        next_index_id := s.next_index_id + 1 }, s.next_index_id)

/-- IndexDB.get_current_constituents: rows joined on index_code with
end_date IS NULL, ordered by symbol. -/
def get_current_constituents (s : DBState) (code : String) : List ConstituentRow :=
  sortOn symLe (s.constituents.filter
    (fun c => joinedByCode s.indices code c && c.end_date == none))

/-- The as-of condition of get_historical_constituents and is_index_member:
effective_date <= d AND (end_date IS NULL OR end_date > d). -/
def asOfMatch (d : Nat) (c : ConstituentRow) : Bool :=
  decide (c.effective_date ≤ d) &&
    (match c.end_date with
     | none => true
     | some e => decide (d < e))

/-- IndexDB.get_historical_constituents: rows joined on index_code whose
interval covers the as-of date, ordered by symbol. -/
def get_historical_constituents (s : DBState) (code : String) (d : Nat) :
    List ConstituentRow :=
  sortOn symLe (s.constituents.filter
    (fun c => joinedByCode s.indices code c && asOfMatch d c))

/-- IndexDB.is_index_member: COUNT(*) of matching rows is positive. -/
def is_index_member (s : DBState) (symbol code : String) (d : Nat) : Bool :=
  decide (0 < s.constituents.countP (fun c =>
    joinedByCode s.indices code c && symbol == c.symbol && asOfMatch d c))

/-- The symbol set of the currently open rows for an index code, as the list
current_df[symbol] deduplicated (the model of the Python set). -/
def currentSymbolList (s : DBState) (code : String) : List String :=
  ((get_current_constituents s code).map (fun c => c.symbol)).dedup

/-- The symbol set of the snapshot DataFrame (set(constituents_df[symbol])). -/
def newSymbolList (snap : List SnapshotRow) : List String :=
  (snap.map (fun r => r.symbol)).dedup

/-- added_symbols = new_symbols - current_symbols. -/
def addedSymbolList (s : DBState) (code : String) (snap : List SnapshotRow) :
    List String :=
  (newSymbolList snap).filter (fun x => decide (x ∉ currentSymbolList s code))

/-- removed_symbols = current_symbols - new_symbols. -/
def removedSymbolList (s : DBState) (code : String) (snap : List SnapshotRow) :
    List String :=
  (currentSymbolList s code).filter (fun x => decide (x ∉ newSymbolList snap))

/-- unchanged_symbols = current_symbols ∩ new_symbols. -/
def unchangedSymbolList (s : DBState) (code : String) (snap : List SnapshotRow) :
    List String :=
  (currentSymbolList s code).filter (fun x => decide (x ∈ newSymbolList snap))

/-- The representative DataFrame rows actually inserted: for each symbol of
added_symbols, the first snapshot row carrying it (iloc[0] on the
symbol-filtered frame). -/
def toInsertList (s : DBState) (code : String) (snap : List SnapshotRow) :
    List SnapshotRow :=
  (firstRowPerSymbol snap).filter (fun r => decide (r.symbol ∉ currentSymbolList s code))

/-- The data_source stamped on every inserted row:
constituents_df.iloc[0].get(source, wikipedia) if the frame is nonempty,
else the literal wikipedia. -/
def snapshotSource (snap : List SnapshotRow) : String :=
  match snap with
  | [] => "wikipedia"
  | r :: _ => r.source.getD "wikipedia"

/-- One INSERT INTO index_constituents of the add loop. -/
def mkConstituentRow (cid idx : Nat) (r : SnapshotRow) (eff ext : Nat)
    (ds : String) : ConstituentRow :=
  { constituent_id := cid, index_id := idx, symbol := r.symbol,
    effective_date := eff, end_date := none, company_name := r.company_name,
    sector := r.sector, sub_industry := r.sub_industry,
    date_added_to_index := r.date_added_to_index, extracted_at := ext,
    data_source := ds }

/-- The rows produced by the whole add loop, with sequential rowids. -/
def mkRows (cid idx eff ext : Nat) (ds : String) :
    List SnapshotRow → List ConstituentRow
  | [] => []
  | r :: rs => mkConstituentRow cid idx r eff ext ds :: mkRows (cid + 1) idx eff ext ds rs

/-- Effect on one stored row of the UPDATE that closes removed constituents:
SET end_date = eff WHERE index_id = idx AND symbol IN removed AND end_date IS NULL. -/
def closeRow (idx : Nat) (removedSyms : List String) (eff : Nat)
    (c : ConstituentRow) : ConstituentRow :=
  if c.index_id = idx ∧ c.symbol ∈ removedSyms ∧ c.end_date = none then
    { c with end_date := some eff }
  else c

/-- Effect on one indices row of UPDATE indices SET last_updated = now
WHERE index_id = idx. -/
def bumpRow (idx now : Nat) (i : IndexRow) : IndexRow :=
  if i.index_id = idx then { i with last_updated := some now } else i

/-- The statements executed inside the transaction of update_constituents,
in program order: close removed constituents, insert each added row, bump
last_updated. -/
def closeStmt (idx : Nat) (removedSyms : List String) (eff : Nat)
    (st : DBState) : DBState :=
  { st with constituents := st.constituents.map (closeRow idx removedSyms eff) }

def insertStmt (idx eff ext : Nat) (ds : String) (r : SnapshotRow)
    (st : DBState) : DBState :=
  { st with
      constituents := st.constituents ++
        [mkConstituentRow st.next_constituent_id idx r eff ext ds],
      next_constituent_id := st.next_constituent_id + 1 }

def bumpStmt (idx now : Nat) (st : DBState) : DBState :=
  { st with indices := st.indices.map (bumpRow idx now) }

/-- An sqlite3 connection used as a context manager: the committed state on
disk and the pending state of the open transaction. -/
structure Conn where
  committed : DBState
  pending : DBState
deriving DecidableEq

/-- Executing one statement only touches the pending state. -/
def txnApply (c : Conn) (stmt : DBState → DBState) : Conn :=
  { c with pending := stmt c.pending }

/-- conn.commit(): the pending state becomes the committed state. -/
def commitConn (c : Conn) : Conn := { c with committed := c.pending }

/-- The UNIQUE(index_id, symbol, effective_date) constraint of
index_constituents: true when some insert of this call would collide with a
stored row, in which case sqlite raises and the transaction rolls back. -/
def conflictCheck (s : DBState) (idx : Nat) (code : String)
    (snap : List SnapshotRow) (eff : Nat) : Bool :=
  (toInsertList s code snap).any (fun r => s.constituents.any (fun c =>
    c.index_id == idx && c.symbol == r.symbol && c.effective_date == eff))

/-- The transaction statement list of one update_constituents call. -/
def updateStmts (s : DBState) (idx : Nat) (code : String)
    (snap : List SnapshotRow) (ext eff now : Nat) : List (DBState → DBState) :=
  closeStmt idx (removedSymbolList s code snap) eff ::
    (toInsertList s code snap).map (insertStmt idx eff ext (snapshotSource snap)) ++
    [bumpStmt idx now]

/-- IndexDB.update_constituents with a fault-injection point: failAfter =
some k makes the storage layer raise after the first k statements of the
transaction, before the commit; the context manager then rolls the
transaction back and the caller observes the committed state.  failAfter =
none is the normal run. -/
def update_constituents_at (failAfter : Option Nat) (s : DBState)
    (code : String) (snap : List SnapshotRow) (ext eff now : Nat) :
    DBState × Except DbErr ChangeSummary :=
  match get_index_id s code with
  | none => (s, Except.error (DbErr.notRegistered code))
  | some idx =>
    if conflictCheck s idx code snap eff then
      (s, Except.error DbErr.storeError)
    else
      let stmts := updateStmts s idx code snap ext eff now
      match failAfter with
      | some k =>
        (((stmts.take k).foldl txnApply { committed := s, pending := s }).committed,
         Except.error DbErr.storeError)
      | none =>
        let conn := commitConn (stmts.foldl txnApply { committed := s, pending := s })
        (conn.committed,
         Except.ok
           { added_count := (addedSymbolList s code snap).length,
             removed_count := (removedSymbolList s code snap).length,
             unchanged_count := (unchangedSymbolList s code snap).length,
             added_symbols := sortOn strLe (addedSymbolList s code snap),
             removed_symbols := sortOn strLe (removedSymbolList s code snap) })

/-- IndexDB.update_constituents, the normal (fault-free) run. -/
def update_constituents (s : DBState) (code : String) (snap : List SnapshotRow)
    (ext eff now : Nat) : DBState × Except DbErr ChangeSummary :=
  update_constituents_at none s code snap ext eff now

/-- The canonical post-state of a successful update_constituents call. -/
def reconciledState (s : DBState) (idx : Nat) (code : String)
    (snap : List SnapshotRow) (ext eff now : Nat) : DBState :=
  { indices := s.indices.map (bumpRow idx now),
    constituents :=
      s.constituents.map (closeRow idx (removedSymbolList s code snap) eff) ++
        mkRows s.next_constituent_id idx eff ext (snapshotSource snap)
          (toInsertList s code snap),
    next_index_id := s.next_index_id,
    next_constituent_id := s.next_constituent_id + (toInsertList s code snap).length }

/-- The summary dictionary of a successful update_constituents call. -/
def reconcileSummary (s : DBState) (code : String) (snap : List SnapshotRow) :
    ChangeSummary :=
  { added_count := (addedSymbolList s code snap).length,
    removed_count := (removedSymbolList s code snap).length,
    unchanged_count := (unchangedSymbolList s code snap).length,
    added_symbols := sortOn strLe (addedSymbolList s code snap),
    removed_symbols := sortOn strLe (removedSymbolList s code snap) }

inductive ChangeType where
  | added
  | removed
deriving DecidableEq

structure ChangeEvent where
  date : Nat
  change_type : ChangeType
  symbol : String
  company_name : Option String
deriving DecidableEq

/-- The optional start/end bounds of get_index_changes applied to a date. -/
def inRange (startB endB : Option Nat) (d : Nat) : Bool :=
  (match startB with
   | none => true
   | some a => decide (a ≤ d)) &&
  (match endB with
   | none => true
   | some b => decide (d ≤ b))

/-- The first SELECT of get_index_changes: one added event per row whose
effective_date satisfies the bounds. -/
def addedEvents (s : DBState) (code : String) (startB endB : Option Nat) :
    List ChangeEvent :=
  (s.constituents.filter
      (fun c => joinedByCode s.indices code c && inRange startB endB c.effective_date)).map
    (fun c => { date := c.effective_date, change_type := ChangeType.added,
                symbol := c.symbol, company_name := c.company_name })

/-- The second SELECT of get_index_changes: one removed event per row whose
end_date is non-null and satisfies the bounds. -/
def removedEvents (s : DBState) (code : String) (startB endB : Option Nat) :
    List ChangeEvent :=
  s.constituents.filterMap (fun c =>
    match c.end_date with
    | none => none
    | some e =>
      if joinedByCode s.indices code c && inRange startB endB e then
        some { date := e, change_type := ChangeType.removed,
               symbol := c.symbol, company_name := c.company_name }
      else none)

/-- ORDER BY date DESC. -/
def dateDesc (a b : ChangeEvent) : Bool := decide (b.date ≤ a.date)

/-- IndexDB.get_index_changes: the UNION ALL of the added and removed
selects, ordered by date descending. -/
def get_index_changes (s : DBState) (code : String) (startB endB : Option Nat) :
    List ChangeEvent :=
  sortOn dateDesc (addedEvents s code startB endB ++ removedEvents s code startB endB)

/-- The current symbol set of an index code, as a finite set. -/
def currentSymbols (s : DBState) (code : String) : Finset String :=
  (currentSymbolList s code).toFinset

/-- The snapshot symbol set, as a finite set. -/
def newSymbols (snap : List SnapshotRow) : Finset String :=
  (newSymbolList snap).toFinset

/-- The set of added symbols of one reconciliation. -/
def addedSet (s : DBState) (code : String) (snap : List SnapshotRow) : Finset String :=
  newSymbols snap \ currentSymbols s code

/-- The set of removed symbols of one reconciliation. -/
def removedSet (s : DBState) (code : String) (snap : List SnapshotRow) : Finset String :=
  currentSymbols s code \ newSymbols snap

/-- Well-formedness of a database state: index ids and codes are unique and
the autoincrement counters bound every stored id.  This holds for every
state reachable from emptyState. -/
def WF (s : DBState) : Prop :=
  (s.indices.map (fun i => i.index_id)).Nodup ∧
  (s.indices.map (fun i => i.index_code)).Nodup ∧
  (∀ i ∈ s.indices, i.index_id < s.next_index_id) ∧
  (∀ c ∈ s.constituents, c.constituent_id < s.next_constituent_id)

/-- One call against the store, for the claims quantifying over sequences of
register_index and update_constituents calls. -/
inductive Op where
  | register (code name desc country ds ac : String) (now : Nat)
  | update (code : String) (snap : List SnapshotRow) (ext eff now : Nat)

/-- State after one call (the state component; results are discarded). -/
def applyOp (s : DBState) : Op → DBState
  | Op.register code name desc country ds ac now =>
    (register_index s code name desc country ds ac now).1
  | Op.update code snap ext eff now =>
    (update_constituents s code snap ext eff now).1

/-- State after a sequence of calls. -/
def applyOps (s : DBState) (ops : List Op) : DBState := ops.foldl applyOp s

/-- Number of open rows stored for one (index_id, symbol) pair. -/
def openCount (s : DBState) (iid : Nat) (sym : String) : Nat :=
  s.constituents.countP
    (fun c => c.index_id == iid && c.symbol == sym && c.end_date == none)

/-- Invariant A of the schema: at most one open interval per
(index_id, symbol) pair. -/
def NoDoubleOpen (s : DBState) : Prop := ∀ iid sym, openCount s iid sym ≤ 1

/-- One row respects invariant C: a set end_date is at least the row's own
effective_date. -/
def rowMonotone (c : ConstituentRow) : Bool :=
  match c.end_date with
  | none => true
  | some e => decide (c.effective_date ≤ e)

/-- Invariant C over the whole store. -/
def MonotoneRows (s : DBState) : Prop :=
  ∀ c ∈ s.constituents, rowMonotone c = true

instance (s : DBState) : Decidable (WF s) :=
  inferInstanceAs (Decidable (
    (s.indices.map (fun i : IndexRow => i.index_id)).Nodup ∧
    (s.indices.map (fun i : IndexRow => i.index_code)).Nodup ∧
    (∀ i ∈ s.indices, i.index_id < s.next_index_id) ∧
    (∀ c ∈ s.constituents, c.constituent_id < s.next_constituent_id)))

instance (s : DBState) : Decidable (MonotoneRows s) :=
  inferInstanceAs (Decidable (∀ c ∈ s.constituents, rowMonotone c = true))

/-- The effective dates of the update calls of a sequence, in order. -/
def effsOf : List Op → List Nat
  | [] => []
  | Op.register _ _ _ _ _ _ _ :: ops => effsOf ops
  | Op.update _ _ _ eff _ :: ops => eff :: effsOf ops

/-- A one-row snapshot containing only AAPL. -/
def snapAAPL : List SnapshotRow :=
  [{ symbol := "AAPL", company_name := some "Apple Inc.", sector := some "IT",
     sub_industry := none, date_added_to_index := none, source := some "wikipedia" }]

/-- A two-row snapshot containing AAPL and MSFT, with a source tag only on
the first row. -/
def snapTwo : List SnapshotRow :=
  [{ symbol := "AAPL", company_name := some "Apple Inc.", sector := some "IT",
     sub_industry := none, date_added_to_index := none, source := some "sp500-wiki" },
   { symbol := "MSFT", company_name := some "Microsoft", sector := some "IT",
     sub_industry := none, date_added_to_index := none, source := some "other" }]

/-- The store right after registering the SPX index in an empty database. -/
def regState : DBState :=
  (register_index emptyState "SPX" "SP500" "demo" "US" "wikipedia" "equity" 0).1

/-- regState after one reconciliation with snapAAPL at effective date 1. -/
def oneMemberState : DBState :=
  (update_constituents regState "SPX" snapAAPL 10 1 11).1

/-- regState after one reconciliation with snapTwo at effective date 1. -/
def twoMemberState : DBState :=
  (update_constituents regState "SPX" snapTwo 10 1 11).1

/-- A sequence of calls whose second update uses an effective date earlier
than the first one. -/
def nonMonotoneOps : List Op :=
  [Op.register "SPX" "SP500" "demo" "US" "wikipedia" "equity" 0,
   Op.update "SPX" snapAAPL 10 5 11,
   Op.update "SPX" [] 20 3 21]

/-- The nonMonotoneOps sequence with the two effective dates in order. -/
def monotoneOps : List Op :=
  [Op.register "SPX" "SP500" "demo" "US" "wikipedia" "equity" 0,
   Op.update "SPX" snapAAPL 10 3 11,
   Op.update "SPX" [] 20 5 21]

/-! ## Theorems -/

theorem insertSorted_perm (le : α → α → Bool) (a : α) (l : List α) :
    (insertSorted le a l).Perm (a :: l) := by
  induction l with
  | nil => simp [insertSorted]
  | cons b bs ih =>
    simp only [insertSorted]
    by_cases h : le a b
    · simp [h]
    · simp only [h, if_false]
      exact (ih.cons b).trans (List.Perm.swap a b bs)

theorem sortOn_perm (le : α → α → Bool) (l : List α) : (sortOn le l).Perm l := by
  induction l with
  | nil => simp [sortOn]
  | cons a as ih =>
    exact (insertSorted_perm le a (sortOn le as)).trans (ih.cons a)

theorem mem_sortOn {le : α → α → Bool} {a : α} {l : List α} :
    a ∈ sortOn le l ↔ a ∈ l :=
  (sortOn_perm le l).mem_iff

theorem chain'_insertSorted (le : α → α → Bool)
    (htot : ∀ a b, le a b = true ∨ le b a = true) (a : α) {l : List α}
    (h : l.Chain' (fun x y => le x y = true)) :
    (insertSorted le a l).Chain' (fun x y => le x y = true) := by
  induction l with
  | nil => simp [insertSorted]
  | cons b bs ih =>
    have h' := List.chain'_cons'.mp h
    simp only [insertSorted]
    by_cases hab : le a b = true
    · rw [if_pos hab]
      exact List.Chain'.cons hab h
    · rw [if_neg hab]
      rw [List.chain'_cons']
      refine ⟨?_, ih h'.2⟩
      intro y hy
      cases bs with
      | nil =>
        simp [insertSorted] at hy
        subst hy
        rcases htot a b with h1 | h1
        · exact absurd h1 hab
        · exact h1
      | cons c cs =>
        simp only [insertSorted] at hy
        by_cases hac : le a c = true
        · simp [hac] at hy
          subst hy
          rcases htot a b with h1 | h1
          · exact absurd h1 hab
          · exact h1
        · simp [hac] at hy
          subst hy
          exact h'.1 c rfl

theorem chain'_sortOn (le : α → α → Bool)
    (htot : ∀ a b, le a b = true ∨ le b a = true) (l : List α) :
    (sortOn le l).Chain' (fun x y => le x y = true) := by
  induction l with
  | nil => simp [sortOn]
  | cons a as ih => exact chain'_insertSorted le htot a ih

theorem mem_firstRowsAux_sub (l : List SnapshotRow) (seen : List String)
    (r : SnapshotRow) : r ∈ firstRowsAux seen l → r ∈ l := by
  induction l generalizing seen with
  | nil =>
    intro h
    simp [firstRowsAux] at h
  | cons r0 rs ih =>
    intro h
    rw [firstRowsAux] at h
    by_cases hs : r0.symbol ∈ seen
    · rw [if_pos hs] at h
      exact List.mem_cons_of_mem r0 (ih _ h)
    · rw [if_neg hs] at h
      rcases List.mem_cons.mp h with h | h
      · simp [h]
      · exact List.mem_cons_of_mem r0 (ih _ h)

theorem mem_firstRowPerSymbol_sub (l : List SnapshotRow) (r : SnapshotRow) :
    r ∈ firstRowPerSymbol l → r ∈ l :=
  mem_firstRowsAux_sub l [] r

theorem firstRowsAux_symbol_iff (l : List SnapshotRow) (seen : List String)
    (sym : String) :
    (∃ r ∈ firstRowsAux seen l, r.symbol = sym) ↔
      sym ∉ seen ∧ ∃ r ∈ l, r.symbol = sym := by
  induction l generalizing seen with
  | nil => simp [firstRowsAux]
  | cons r0 rs ih =>
    rw [firstRowsAux]
    by_cases hs : r0.symbol ∈ seen
    · rw [if_pos hs, ih]
      constructor
      · rintro ⟨hns, r, hr, hsym⟩
        exact ⟨hns, r, List.mem_cons_of_mem r0 hr, hsym⟩
      · rintro ⟨hns, r, hr, hsym⟩
        refine ⟨hns, ?_⟩
        rcases List.mem_cons.mp hr with hr | hr
        · exact absurd (by rw [← hsym, hr]; exact hs) hns
        · exact ⟨r, hr, hsym⟩
    · rw [if_neg hs]
      constructor
      · rintro ⟨r, hr, hsym⟩
        rcases List.mem_cons.mp hr with hr | hr
        · exact ⟨by rw [← hsym, hr]; exact hs, r0, List.mem_cons_self _ _,
            by rw [← hr]; exact hsym⟩
        · obtain ⟨hns, r', hr', hsym'⟩ := (ih _).mp ⟨r, hr, hsym⟩
          exact ⟨fun hmem => hns (List.mem_cons_of_mem _ hmem),
            r', List.mem_cons_of_mem r0 hr', hsym'⟩
      · rintro ⟨hns, r, hr, hsym⟩
        by_cases heq : sym = r0.symbol
        · exact ⟨r0, List.mem_cons_self _ _, heq.symm⟩
        · rcases List.mem_cons.mp hr with hr | hr
          · exact absurd (by rw [← hsym, hr] : sym = r0.symbol) heq
          · obtain ⟨r', hr', hsym'⟩ := (ih _).mpr
              ⟨by
                intro hmem
                rcases List.mem_cons.mp hmem with h | h
                · exact heq h
                · exact hns h,
               r, hr, hsym⟩
            exact ⟨r', List.mem_cons_of_mem r0 hr', hsym'⟩

theorem firstRowPerSymbol_symbol_iff (l : List SnapshotRow) (sym : String) :
    (∃ r ∈ firstRowPerSymbol l, r.symbol = sym) ↔ ∃ r ∈ l, r.symbol = sym := by
  rw [firstRowPerSymbol, firstRowsAux_symbol_iff]
  simp

theorem firstRowsAux_symbols_nodup (l : List SnapshotRow) (seen : List String) :
    ((firstRowsAux seen l).map (fun r => r.symbol)).Nodup := by
  induction l generalizing seen with
  | nil => simp [firstRowsAux]
  | cons r0 rs ih =>
    rw [firstRowsAux]
    by_cases hs : r0.symbol ∈ seen
    · rw [if_pos hs]
      exact ih seen
    · rw [if_neg hs]
      simp only [List.map_cons, List.nodup_cons]
      refine ⟨?_, ih _⟩
      intro hmem
      obtain ⟨r, hr, hsym⟩ := List.mem_map.mp hmem
      obtain ⟨hns, -⟩ := (firstRowsAux_symbol_iff rs (r0.symbol :: seen) r0.symbol).mp
        ⟨r, hr, hsym⟩
      exact hns (List.mem_cons_self _ _)

theorem firstRowPerSymbol_symbols_nodup (l : List SnapshotRow) :
    ((firstRowPerSymbol l).map (fun r => r.symbol)).Nodup :=
  firstRowsAux_symbols_nodup l []

theorem foldl_txnApply_committed (stmts : List (DBState → DBState)) (c : Conn) :
    (stmts.foldl txnApply c).committed = c.committed := by
  induction stmts generalizing c with
  | nil => rfl
  | cons f fs ih => rw [List.foldl_cons, ih]; rfl

theorem foldl_txnApply_pending (stmts : List (DBState → DBState)) (c : Conn) :
    (stmts.foldl txnApply c).pending = stmts.foldl (fun st f => f st) c.pending := by
  induction stmts generalizing c with
  | nil => rfl
  | cons f fs ih => rw [List.foldl_cons, List.foldl_cons, ih]; rfl

theorem foldl_insertStmt (idx eff ext : Nat) (ds : String) (rs : List SnapshotRow)
    (st : DBState) :
    (rs.map (insertStmt idx eff ext ds)).foldl (fun a f => f a) st =
      { st with
          constituents := st.constituents ++
            mkRows st.next_constituent_id idx eff ext ds rs,
          next_constituent_id := st.next_constituent_id + rs.length } := by
  induction rs generalizing st with
  | nil => simp [mkRows]
  | cons r rs ih =>
    cases st with
    | mk inds cons nid ncid =>
      simp only [List.map_cons, List.foldl_cons]
      rw [ih]
      simp only [insertStmt, mkRows, DBState.mk.injEq, List.length_cons,
        List.append_assoc, List.singleton_append, true_and, and_true]
      omega

theorem updateStmts_run (s : DBState) (idx : Nat) (code : String)
    (snap : List SnapshotRow) (ext eff now : Nat) :
    (updateStmts s idx code snap ext eff now).foldl (fun a f => f a) s =
      reconciledState s idx code snap ext eff now := by
  simp only [updateStmts, List.foldl_cons, List.foldl_append, List.foldl_nil]
  rw [foldl_insertStmt]
  rfl

/-- A successful call decomposes into the canonical post-state and summary. -/
theorem update_ok_inv {s : DBState} {code : String} {snap : List SnapshotRow}
    {ext eff now : Nat} {s' : DBState} {sum : ChangeSummary}
    (h : update_constituents s code snap ext eff now = (s', Except.ok sum)) :
    ∃ idx, get_index_id s code = some idx ∧
      conflictCheck s idx code snap eff = false ∧
      s' = reconciledState s idx code snap ext eff now ∧
      sum = reconcileSummary s code snap := by
  rw [update_constituents, update_constituents_at] at h
  cases hidx : get_index_id s code with
  | none =>
    simp only [hidx] at h
    exact absurd (congrArg Prod.snd h) (by simp)
  | some idx =>
    simp only [hidx] at h
    by_cases hconf : conflictCheck s idx code snap eff = true
    · rw [if_pos hconf] at h
      exact absurd (congrArg Prod.snd h) (by simp)
    · rw [if_neg hconf] at h
      simp only [commitConn, foldl_txnApply_pending] at h
      rw [updateStmts_run] at h
      refine ⟨idx, rfl, by simpa using hconf, ?_, ?_⟩
      · exact (congrArg Prod.fst h).symm
      · have h2 := congrArg Prod.snd h
        simp only at h2
        injection h2 with h3
        exact h3.symm

/-- Conversely, when the index is registered and no insert collides with the
uniqueness constraint, the call succeeds with that post-state and summary. -/
theorem update_ok_of {s : DBState} {code : String} {snap : List SnapshotRow}
    (ext : Nat) {eff : Nat} (now : Nat) {idx : Nat}
    (hidx : get_index_id s code = some idx)
    (hconf : conflictCheck s idx code snap eff = false) :
    update_constituents s code snap ext eff now =
      (reconciledState s idx code snap ext eff now,
       Except.ok (reconcileSummary s code snap)) := by
  rw [update_constituents, update_constituents_at]
  simp only [hidx]
  rw [if_neg (by rw [hconf]; exact Bool.false_ne_true)]
  simp only [commitConn, foldl_txnApply_pending]
  rw [updateStmts_run]
  rfl

/-- Any error outcome leaves the observed state unchanged (rollback or
failure before the transaction). -/
theorem update_error_state {s : DBState} {code : String} {snap : List SnapshotRow}
    {ext eff now : Nat} {s' : DBState} {e : DbErr}
    (h : update_constituents s code snap ext eff now = (s', Except.error e)) :
    s' = s := by
  rw [update_constituents, update_constituents_at] at h
  cases hidx : get_index_id s code with
  | none =>
    simp only [hidx] at h
    exact (congrArg Prod.fst h).symm
  | some idx =>
    simp only [hidx] at h
    by_cases hconf : conflictCheck s idx code snap eff = true
    · rw [if_pos hconf] at h
      exact (congrArg Prod.fst h).symm
    · rw [if_neg hconf] at h
      simp only [commitConn, foldl_txnApply_pending] at h
      exact absurd (congrArg Prod.snd h) (by simp)

theorem mem_currentSymbolList {s : DBState} {code : String} {sym : String} :
    sym ∈ currentSymbolList s code ↔
      ∃ c ∈ s.constituents, joinedByCode s.indices code c = true ∧
        c.end_date = none ∧ c.symbol = sym := by
  simp only [currentSymbolList, get_current_constituents, List.mem_dedup,
    List.mem_map, mem_sortOn, List.mem_filter, Bool.and_eq_true, beq_iff_eq]
  constructor
  · rintro ⟨c, ⟨hc, hj, he⟩, hsym⟩
    exact ⟨c, hc, hj, he, hsym⟩
  · rintro ⟨c, hc, hj, he, hsym⟩
    exact ⟨c, ⟨hc, hj, he⟩, hsym⟩

theorem mem_currentSymbols {s : DBState} {code : String} {sym : String} :
    sym ∈ currentSymbols s code ↔
      ∃ c ∈ s.constituents, joinedByCode s.indices code c = true ∧
        c.end_date = none ∧ c.symbol = sym := by
  rw [currentSymbols, List.mem_toFinset, mem_currentSymbolList]

theorem mem_newSymbolList {snap : List SnapshotRow} {sym : String} :
    sym ∈ newSymbolList snap ↔ ∃ r ∈ snap, r.symbol = sym := by
  simp [newSymbolList, List.mem_dedup]

theorem mem_newSymbols {snap : List SnapshotRow} {sym : String} :
    sym ∈ newSymbols snap ↔ ∃ r ∈ snap, r.symbol = sym := by
  rw [newSymbols, List.mem_toFinset, mem_newSymbolList]

theorem mem_addedSymbolList {s : DBState} {code : String} {snap : List SnapshotRow}
    {sym : String} :
    sym ∈ addedSymbolList s code snap ↔ sym ∈ addedSet s code snap := by
  simp only [addedSymbolList, List.mem_filter, addedSet, Finset.mem_sdiff,
    decide_eq_true_eq, newSymbols, currentSymbols, List.mem_toFinset]

theorem mem_removedSymbolList {s : DBState} {code : String} {snap : List SnapshotRow}
    {sym : String} :
    sym ∈ removedSymbolList s code snap ↔ sym ∈ removedSet s code snap := by
  simp only [removedSymbolList, List.mem_filter, removedSet, Finset.mem_sdiff,
    decide_eq_true_eq, newSymbols, currentSymbols, List.mem_toFinset]

theorem mem_toInsertList {s : DBState} {code : String} {snap : List SnapshotRow}
    {r : SnapshotRow} :
    r ∈ toInsertList s code snap ↔
      r ∈ firstRowPerSymbol snap ∧ r.symbol ∉ currentSymbolList s code := by
  simp [toInsertList, List.mem_filter]

/-- The symbols of the inserted representative rows are exactly the added
symbols. -/
theorem toInsertList_symbol_iff {s : DBState} {code : String}
    {snap : List SnapshotRow} {sym : String} :
    (∃ r ∈ toInsertList s code snap, r.symbol = sym) ↔ sym ∈ addedSet s code snap := by
  constructor
  · rintro ⟨r, hr, hsym⟩
    obtain ⟨hfr, hnc⟩ := mem_toInsertList.mp hr
    rw [addedSet, Finset.mem_sdiff]
    refine ⟨mem_newSymbols.mpr ?_, ?_⟩
    · exact ⟨r, mem_firstRowPerSymbol_sub _ _ hfr, hsym⟩
    · rw [currentSymbols, List.mem_toFinset]
      rw [hsym] at hnc
      exact hnc
  · intro hmem
    rw [addedSet, Finset.mem_sdiff] at hmem
    obtain ⟨hnew, hnc⟩ := hmem
    obtain ⟨r, hr, hsym⟩ := (firstRowPerSymbol_symbol_iff snap sym).mpr
      (by simpa [mem_newSymbols] using hnew)
    refine ⟨r, mem_toInsertList.mpr ⟨hr, ?_⟩, hsym⟩
    rw [hsym]
    rw [currentSymbols, List.mem_toFinset] at hnc
    exact hnc

/-- Under WF, the JOIN on an index code resolved to idx is exactly the test
index_id = idx. -/
theorem joinedByCode_eq_of_WF {s : DBState} {code : String} {idx : Nat}
    (hwf : WF s) (hidx : get_index_id s code = some idx) (c : ConstituentRow) :
    joinedByCode s.indices code c = (c.index_id == idx) := by
  obtain ⟨-, hcodes, -, -⟩ := hwf
  rw [get_index_id] at hidx
  cases hfind : s.indices.find? (fun i => i.index_code == code) with
  | none => rw [hfind] at hidx; simp at hidx
  | some i0 =>
    rw [hfind] at hidx
    simp only [Option.map_some', Option.some.injEq] at hidx
    have hmem0 := List.mem_of_find?_eq_some hfind
    have hcode0 : i0.index_code = code := by simpa using List.find?_some hfind
    rw [Bool.eq_iff_iff]
    simp only [joinedByCode, List.any_eq_true, Bool.and_eq_true, beq_iff_eq]
    constructor
    · rintro ⟨i, hi, hid, hcode⟩
      have heq : i = i0 :=
        List.inj_on_of_nodup_map hcodes hi hmem0 (by rw [hcode, hcode0])
      rw [← hid, heq, hidx]
    · intro h
      exact ⟨i0, hmem0, by rw [hidx, h], hcode0⟩

theorem mem_mkRows_fields {cid idx eff ext : Nat} {ds : String}
    {rs : List SnapshotRow} {c : ConstituentRow} :
    c ∈ mkRows cid idx eff ext ds rs →
    ∃ r ∈ rs, c.symbol = r.symbol ∧ c.company_name = r.company_name ∧
      c.sector = r.sector ∧ c.sub_industry = r.sub_industry ∧
      c.date_added_to_index = r.date_added_to_index ∧
      c.index_id = idx ∧ c.effective_date = eff ∧ c.end_date = none ∧
      c.data_source = ds ∧ c.extracted_at = ext ∧
      cid ≤ c.constituent_id ∧ c.constituent_id < cid + rs.length := by
  induction rs generalizing cid with
  | nil => intro h; simp [mkRows] at h
  | cons r rs ih =>
    intro h
    rw [mkRows] at h
    rcases List.mem_cons.mp h with h | h
    · subst h
      exact ⟨r, List.mem_cons_self _ _, rfl, rfl, rfl, rfl, rfl, rfl, rfl, rfl,
        rfl, rfl, Nat.le_refl _, by simp [mkConstituentRow, List.length_cons]⟩
    · obtain ⟨r', hr', h1, h2, h3, h4, h5, h6, h7, h8, h9, h10, h11, h12⟩ := ih h
      exact ⟨r', List.mem_cons_of_mem r hr', h1, h2, h3, h4, h5, h6, h7, h8, h9,
        h10, by omega, by simp [List.length_cons]; omega⟩

theorem mkRows_mem_of_mem (idx eff ext : Nat) (ds : String) (cid : Nat)
    {rs : List SnapshotRow} {r : SnapshotRow} (h : r ∈ rs) :
    ∃ c ∈ mkRows cid idx eff ext ds rs, c.symbol = r.symbol := by
  induction rs generalizing cid with
  | nil => simp at h
  | cons r0 rs ih =>
    rw [mkRows]
    rcases List.mem_cons.mp h with h | h
    · exact ⟨mkConstituentRow cid idx r0 eff ext ds, List.mem_cons_self _ _,
        by rw [h]; rfl⟩
    · obtain ⟨c, hc, hsym⟩ := ih (cid + 1) h
      exact ⟨c, List.mem_cons_of_mem _ hc, hsym⟩

/-- Bumping last_updated preserves the join on index_code. -/
theorem joinedByCode_map_bumpRow (inds : List IndexRow) (idx now : Nat)
    (code : String) (c : ConstituentRow) :
    joinedByCode (inds.map (bumpRow idx now)) code c = joinedByCode inds code c := by
  simp only [joinedByCode, List.any_map]
  congr 1
  funext i
  by_cases h : i.index_id = idx <;> simp [bumpRow, h, Function.comp]

theorem find?_ext {α : Type} {p q : α → Bool} (h : ∀ a, p a = q a)
    (l : List α) : l.find? p = l.find? q := by
  induction l with
  | nil => rfl
  | cons a l ih =>
    rw [List.find?_cons, List.find?_cons, h a, ih]

/-- Bumping last_updated preserves index-id resolution. -/
theorem get_index_id_map_bumpRow (s : DBState) (idx now : Nat) (code : String)
    (rest : List ConstituentRow) (nid ncid : Nat) :
    get_index_id
      { indices := s.indices.map (bumpRow idx now), constituents := rest,
        next_index_id := nid, next_constituent_id := ncid } code =
    get_index_id s code := by
  simp only [get_index_id, List.find?_map]
  have hpred : ∀ i : IndexRow,
      ((fun i => i.index_code == code) ∘ bumpRow idx now) i =
        (fun i => i.index_code == code) i := by
    intro i
    by_cases h : i.index_id = idx <;> simp [bumpRow, h, Function.comp]
  rw [find?_ext hpred]
  cases hfind : s.indices.find? (fun i => i.index_code == code) with
  | none => simp
  | some i0 =>
    by_cases h : i0.index_id = idx <;> simp [bumpRow, h]

/-- After a successful reconciliation the current symbol set equals the
snapshot symbol set. -/
theorem currentSymbols_reconciled {s : DBState} {code : String}
    {snap : List SnapshotRow} {ext eff now idx : Nat}
    (hwf : WF s) (hidx : get_index_id s code = some idx) :
    currentSymbols (reconciledState s idx code snap ext eff now) code =
      newSymbols snap := by
  apply Finset.ext
  intro sym
  rw [mem_currentSymbols, mem_newSymbols]
  constructor
  · rintro ⟨c, hc, hj, he, hsym⟩
    simp only [reconciledState] at hc hj
    have hj' : joinedByCode s.indices code c = true := by
      rw [← joinedByCode_map_bumpRow s.indices idx now code c]
      exact hj
    have hcidx : c.index_id = idx := by
      have := joinedByCode_eq_of_WF hwf hidx c
      rw [this] at hj'
      exact beq_iff_eq.mp hj'
    rcases List.mem_append.mp hc with hold | hnew
    · obtain ⟨c0, hc0, hclose⟩ := List.mem_map.mp hold
      by_cases hcond : c0.index_id = idx ∧
          c0.symbol ∈ removedSymbolList s code snap ∧ c0.end_date = none
      · rw [← hclose] at he
        simp [closeRow, hcond] at he
      · have hcc0 : c = c0 := by rw [← hclose]; simp [closeRow, hcond]
        subst hcc0
        have hcur : c.symbol ∈ currentSymbolList s code :=
          mem_currentSymbolList.mpr ⟨c, hc0, hj', he, rfl⟩
        have hrem : c.symbol ∉ removedSymbolList s code snap := by
          intro hmem
          exact hcond ⟨hcidx, hmem, he⟩
        have hnew : c.symbol ∈ newSymbolList snap := by
          by_contra hnn
          exact hrem (List.mem_filter.mpr ⟨hcur, by simpa using hnn⟩)
        rw [← hsym]
        exact mem_newSymbolList.mp hnew
    · obtain ⟨r, hr, hsymr, -⟩ := mem_mkRows_fields hnew
      refine ⟨r, ?_, by rw [← hsym, hsymr]⟩
      exact mem_firstRowPerSymbol_sub _ _ (mem_toInsertList.mp hr).1
  · rintro ⟨r, hr, hsym⟩
    by_cases hcur : sym ∈ currentSymbolList s code
    · obtain ⟨c0, hc0, hj0, he0, hsym0⟩ := mem_currentSymbolList.mp hcur
      have hrem : c0.symbol ∉ removedSymbolList s code snap := by
        rw [hsym0]
        intro hmem
        have := (List.mem_filter.mp hmem).2
        simp only [decide_eq_true_eq] at this
        exact this (mem_newSymbolList.mpr ⟨r, hr, hsym⟩)
      have hncond : ¬(c0.index_id = idx ∧
          c0.symbol ∈ removedSymbolList s code snap ∧ c0.end_date = none) :=
        fun hcond => hrem hcond.2.1
      have hfix : closeRow idx (removedSymbolList s code snap) eff c0 = c0 := by
        simp only [closeRow, if_neg hncond]
      refine ⟨c0, ?_, ?_, he0, hsym0⟩
      · simp only [reconciledState]
        exact List.mem_append.mpr (Or.inl (List.mem_map.mpr ⟨c0, hc0, hfix⟩))
      · simp only [reconciledState]
        rw [joinedByCode_map_bumpRow]
        exact hj0
    · have hadd : sym ∈ addedSet s code snap := by
        rw [addedSet, Finset.mem_sdiff]
        refine ⟨mem_newSymbols.mpr ⟨r, hr, hsym⟩, ?_⟩
        rw [currentSymbols, List.mem_toFinset]
        exact hcur
      obtain ⟨r', hr', hsym'⟩ := toInsertList_symbol_iff.mpr hadd
      obtain ⟨c, hc, hcsym⟩ :=
        mkRows_mem_of_mem idx eff ext (snapshotSource snap)
          s.next_constituent_id hr'
      obtain ⟨-, -, -, -, -, -, -, hcidx, -, hcend, -, -⟩ := mem_mkRows_fields hc
      refine ⟨c, ?_, ?_, hcend, by rw [hcsym, hsym']⟩
      · simp only [reconciledState]
        exact List.mem_append.mpr (Or.inr hc)
      · simp only [reconciledState]
        rw [joinedByCode_map_bumpRow]
        rw [joinedByCode_eq_of_WF hwf hidx c]
        exact beq_iff_eq.mpr hcidx

theorem register_index_constituents (s : DBState)
    (code name desc country ds ac : String) (now : Nat) :
    ((register_index s code name desc country ds ac now).1).constituents =
      s.constituents := by
  rw [register_index]
  cases hfind : s.indices.find? (fun i => i.index_code == code) <;> rfl

theorem register_index_ncid (s : DBState)
    (code name desc country ds ac : String) (now : Nat) :
    ((register_index s code name desc country ds ac now).1).next_constituent_id =
      s.next_constituent_id := by
  rw [register_index]
  cases hfind : s.indices.find? (fun i => i.index_code == code) <;> rfl

theorem WF_register (s : DBState) (code name desc country ds ac : String)
    (now : Nat) (hwf : WF s) :
    WF (register_index s code name desc country ds ac now).1 := by
  obtain ⟨hids, hcodes, hbound, hcbound⟩ := hwf
  rw [register_index]
  cases hfind : s.indices.find? (fun i => i.index_code == code) with
  | some i0 =>
    refine ⟨?_, ?_, ?_, hcbound⟩
    · have : (s.indices.map (fun j =>
          if j.index_id = i0.index_id then
            { j with index_name := name, description := desc, country := country,
                     data_source := ds, asset_class := ac,
                     last_updated := some now }
          else j)).map (fun i => i.index_id) =
          s.indices.map (fun i => i.index_id) := by
        rw [List.map_map]
        apply List.map_congr_left
        intro j _
        by_cases h : j.index_id = i0.index_id <;> simp [h]
      rw [this]
      exact hids
    · have : (s.indices.map (fun j =>
          if j.index_id = i0.index_id then
            { j with index_name := name, description := desc, country := country,
                     data_source := ds, asset_class := ac,
                     last_updated := some now }
          else j)).map (fun i => i.index_code) =
          s.indices.map (fun i => i.index_code) := by
        rw [List.map_map]
        apply List.map_congr_left
        intro j _
        by_cases h : j.index_id = i0.index_id <;> simp [h]
      rw [this]
      exact hcodes
    · intro i hi
      obtain ⟨j, hj, hij⟩ := List.mem_map.mp hi
      have : i.index_id = j.index_id := by
        rw [← hij]
        by_cases h : j.index_id = i0.index_id <;> simp [h]
      rw [this]
      exact hbound j hj
  | none =>
    have hnotin : ∀ i ∈ s.indices, i.index_code ≠ code := by
      intro i hi
      have := List.find?_eq_none.mp hfind i hi
      simpa using this
    refine ⟨?_, ?_, ?_, hcbound⟩
    · rw [List.map_append, List.nodup_append]
      refine ⟨hids, List.nodup_singleton _, ?_⟩
      intro a ha hb
      obtain ⟨i, hi, hai⟩ := List.mem_map.mp ha
      simp only [List.map_cons, List.map_nil, List.mem_singleton] at hb
      have := hbound i hi
      omega
    · rw [List.map_append, List.nodup_append]
      refine ⟨hcodes, List.nodup_singleton _, ?_⟩
      intro a ha hb
      obtain ⟨i, hi, hai⟩ := List.mem_map.mp ha
      simp only [List.map_cons, List.map_nil, List.mem_singleton] at hb
      exact hnotin i hi (by rw [hai]; exact hb)
    · intro i hi
      rcases List.mem_append.mp hi with hi | hi
      · have := hbound i hi
        exact (show i.index_id < s.next_index_id + 1 by omega)
      · simp only [List.mem_singleton] at hi
        rw [hi]
        exact (show s.next_index_id < s.next_index_id + 1 by omega)

theorem WF_reconciled {s : DBState} (idx : Nat) (code : String)
    (snap : List SnapshotRow) (ext eff now : Nat) (hwf : WF s) :
    WF (reconciledState s idx code snap ext eff now) := by
  obtain ⟨hids, hcodes, hbound, hcbound⟩ := hwf
  refine ⟨?_, ?_, ?_, ?_⟩
  · have : ((s.indices.map (bumpRow idx now)).map (fun i => i.index_id)) =
        s.indices.map (fun i => i.index_id) := by
      rw [List.map_map]
      apply List.map_congr_left
      intro j _
      by_cases h : j.index_id = idx <;> simp [bumpRow, h]
    rw [reconciledState] at *
    simp only
    rw [this]
    exact hids
  · have : ((s.indices.map (bumpRow idx now)).map (fun i => i.index_code)) =
        s.indices.map (fun i => i.index_code) := by
      rw [List.map_map]
      apply List.map_congr_left
      intro j _
      by_cases h : j.index_id = idx <;> simp [bumpRow, h]
    rw [reconciledState]
    simp only
    rw [this]
    exact hcodes
  · rw [reconciledState]
    intro i hi
    simp only at hi
    obtain ⟨j, hj, hij⟩ := List.mem_map.mp hi
    have heq : i.index_id = j.index_id := by
      rw [← hij]
      by_cases h : j.index_id = idx <;> simp [bumpRow, h]
    simp only
    rw [heq]
    exact hbound j hj
  · rw [reconciledState]
    intro c hc
    simp only at hc ⊢
    rcases List.mem_append.mp hc with hc | hc
    · obtain ⟨c0, hc0, hcc⟩ := List.mem_map.mp hc
      have heq : c.constituent_id = c0.constituent_id := by
        rw [← hcc]
        by_cases h : c0.index_id = idx ∧
            c0.symbol ∈ removedSymbolList s code snap ∧ c0.end_date = none <;>
          simp [closeRow, h]
      rw [heq]
      have := hcbound c0 hc0
      omega
    · obtain ⟨-, -, -, -, -, -, -, -, -, -, -, -, -, hlt⟩ := mem_mkRows_fields hc
      omega

theorem mkRows_openCount (cid idx eff ext : Nat) (ds : String)
    (rs : List SnapshotRow) (iid : Nat) (sym : String) :
    (mkRows cid idx eff ext ds rs).countP
      (fun c => c.index_id == iid && c.symbol == sym && c.end_date == none) =
    if idx = iid then rs.countP (fun r => r.symbol == sym) else 0 := by
  induction rs generalizing cid with
  | nil => simp [mkRows]
  | cons r rs ih =>
    rw [mkRows, List.countP_cons, ih]
    by_cases hii : idx = iid
    · by_cases hsym : r.symbol = sym
      · simp [mkConstituentRow, hii, hsym, List.countP_cons]
      · simp [mkConstituentRow, hii, hsym, List.countP_cons]
    · simp [mkConstituentRow, hii]

theorem countP_symbol_le_one {rs : List SnapshotRow}
    (h : (rs.map (fun r => r.symbol)).Nodup) (sym : String) :
    rs.countP (fun r => r.symbol == sym) ≤ 1 := by
  induction rs with
  | nil => simp
  | cons r rs ih =>
    simp only [List.map_cons, List.nodup_cons] at h
    rw [List.countP_cons]
    by_cases hsym : r.symbol = sym
    · have hzero : rs.countP (fun r => r.symbol == sym) = 0 := by
        rw [List.countP_eq_zero]
        intro r' hr'
        simp only [beq_iff_eq]
        intro hr'sym
        exact h.1 (List.mem_map.mpr ⟨r', hr', by rw [hr'sym, hsym]⟩)
      simp [hzero, hsym]
    · rw [if_neg (by simp [hsym])]
      simpa using ih h.2

theorem toInsertList_symbols_nodup (s : DBState) (code : String)
    (snap : List SnapshotRow) :
    ((toInsertList s code snap).map (fun r => r.symbol)).Nodup := by
  have h1 : (toInsertList s code snap).Sublist (firstRowPerSymbol snap) := by
    rw [toInsertList]
    exact List.filter_sublist _
  exact List.Nodup.sublist (h1.map (fun r => r.symbol))
    (firstRowPerSymbol_symbols_nodup snap)

/-- A successful reconciliation preserves the no-double-open invariant. -/
theorem NDO_reconciled {s : DBState} {code : String} {snap : List SnapshotRow}
    {ext eff now idx : Nat} (hwf : WF s) (hidx : get_index_id s code = some idx)
    (hnd : NoDoubleOpen s) :
    NoDoubleOpen (reconciledState s idx code snap ext eff now) := by
  intro iid sym
  rw [openCount, reconciledState]
  simp only
  rw [List.countP_append]
  have hmapLe : (s.constituents.map
      (closeRow idx (removedSymbolList s code snap) eff)).countP
        (fun c => c.index_id == iid && c.symbol == sym && c.end_date == none) ≤
      openCount s iid sym := by
    rw [List.countP_map, openCount]
    apply List.countP_mono_left
    intro c hc hpc
    by_cases hcond : c.index_id = idx ∧
        c.symbol ∈ removedSymbolList s code snap ∧ c.end_date = none
    · exact absurd hpc (by simp [Function.comp, closeRow, hcond])
    · simpa [Function.comp, closeRow, hcond] using hpc
  have hnewEq := mkRows_openCount s.next_constituent_id idx eff ext
    (snapshotSource snap) (toInsertList s code snap) iid sym
  by_cases hii : idx = iid
  · by_cases hex : ∃ r ∈ toInsertList s code snap, r.symbol = sym
    · have hadd : sym ∈ addedSet s code snap := toInsertList_symbol_iff.mp hex
      have hcur0 : sym ∉ currentSymbolList s code := by
        rw [addedSet] at hadd
        have hns := (Finset.mem_sdiff.mp hadd).2
        rw [currentSymbols] at hns
        exact fun hmem => hns (List.mem_toFinset.mpr hmem)
      have hzero : openCount s iid sym = 0 := by
        rw [openCount, List.countP_eq_zero]
        intro c hc
        simp only [Bool.and_eq_true, beq_iff_eq]
        rintro ⟨⟨hcid, hcsym⟩, hcend⟩
        apply hcur0
        apply mem_currentSymbolList.mpr
        refine ⟨c, hc, ?_, hcend, hcsym⟩
        rw [joinedByCode_eq_of_WF hwf hidx]
        rw [beq_iff_eq, hcid, ← hii]
      have hle1 := countP_symbol_le_one (toInsertList_symbols_nodup s code snap) sym
      rw [hnewEq, if_pos hii]
      omega
    · have hzero : (toInsertList s code snap).countP
          (fun r => r.symbol == sym) = 0 := by
        rw [List.countP_eq_zero]
        intro r hr
        simp only [beq_iff_eq]
        exact fun hsymr => hex ⟨r, hr, hsymr⟩
      rw [hnewEq, if_pos hii, hzero]
      have := hnd iid sym
      omega
  · rw [hnewEq, if_neg hii]
    have := hnd iid sym
    omega

theorem WF_update {s : DBState} (hwf : WF s) (code : String)
    (snap : List SnapshotRow) (ext eff now : Nat) :
    WF (update_constituents s code snap ext eff now).1 := by
  rcases hu : update_constituents s code snap ext eff now with ⟨s', r⟩
  cases r with
  | error e =>
    have := update_error_state hu
    simpa [this] using hwf
  | ok sum =>
    obtain ⟨idx, hidx, hconf, hs', -⟩ := update_ok_inv hu
    simpa [hs'] using WF_reconciled idx code snap ext eff now hwf

theorem NDO_update {s : DBState} (hwf : WF s) (hnd : NoDoubleOpen s)
    (code : String) (snap : List SnapshotRow) (ext eff now : Nat) :
    NoDoubleOpen (update_constituents s code snap ext eff now).1 := by
  rcases hu : update_constituents s code snap ext eff now with ⟨s', r⟩
  cases r with
  | error e =>
    have := update_error_state hu
    simpa [this] using hnd
  | ok sum =>
    obtain ⟨idx, hidx, hconf, hs', -⟩ := update_ok_inv hu
    simpa [hs'] using NDO_reconciled hwf hidx hnd

theorem NDO_register (s : DBState) (code name desc country ds ac : String)
    (now : Nat) (hnd : NoDoubleOpen s) :
    NoDoubleOpen (register_index s code name desc country ds ac now).1 := by
  intro iid sym
  rw [openCount, register_index_constituents]
  exact hnd iid sym

/-- Both invariants hold along every call sequence from the empty store. -/
theorem inv_ops (ops : List Op) :
    WF (applyOps emptyState ops) ∧ NoDoubleOpen (applyOps emptyState ops) := by
  suffices h : ∀ s, WF s → NoDoubleOpen s →
      WF (applyOps s ops) ∧ NoDoubleOpen (applyOps s ops) by
    refine h emptyState (by decide) ?_
    intro iid sym
    rw [openCount]
    simp [emptyState]
  induction ops with
  | nil => exact fun s h1 h2 => ⟨h1, h2⟩
  | cons op ops ih =>
    intro s h1 h2
    cases op with
    | register code name desc country ds ac now =>
      exact ih _ (WF_register s code name desc country ds ac now h1)
        (NDO_register s code name desc country ds ac now h2)
    | update code snap ext eff now =>
      exact ih _ (WF_update h1 code snap ext eff now)
        (NDO_update h1 h2 code snap ext eff now)

theorem applyOps_cons (s : DBState) (op : Op) (ops : List Op) :
    applyOps s (op :: ops) = applyOps (applyOp s op) ops := rfl

/-- Invariant C is preserved along a call sequence whose effective dates are
bounded below by lo and non-decreasing, provided every open row's
effective_date is at most lo. -/
theorem monotone_aux (ops : List Op) :
    ∀ (s : DBState) (lo : Nat),
      List.Chain' (fun a b => a ≤ b) (lo :: effsOf ops) →
      (∀ c ∈ s.constituents, c.end_date = none → c.effective_date ≤ lo) →
      MonotoneRows s → MonotoneRows (applyOps s ops) := by
  induction ops with
  | nil => exact fun s lo _ _ hm => hm
  | cons op ops ih =>
    intro s lo hch hopen hmono
    rw [applyOps_cons]
    cases op with
    | register code name desc country ds ac now =>
      have hcons := register_index_constituents s code name desc country ds ac now
      refine ih _ lo hch ?_ ?_
      · intro c hc hend
        rw [applyOp] at hc
        rw [hcons] at hc
        exact hopen c hc hend
      · intro c hc
        rw [applyOp] at hc
        rw [hcons] at hc
        exact hmono c hc
    | update code snap ext eff now =>
      obtain ⟨hle, hch'⟩ := List.chain'_cons.mp hch
      rcases hu : update_constituents s code snap ext eff now with ⟨s₁, r⟩
      have happ : applyOp s (Op.update code snap ext eff now) = s₁ := by
        show (update_constituents s code snap ext eff now).1 = s₁
        rw [hu]
      rw [happ]
      cases r with
      | error e =>
        have hs := update_error_state hu
        subst hs
        refine ih _ eff hch' ?_ ?_
        · intro c hc hend
          exact le_trans (hopen c hc hend) hle
        · exact hmono
      | ok sum =>
        obtain ⟨idx, hidx, hconf, hs₁, -⟩ := update_ok_inv hu
        subst hs₁
        refine ih _ eff hch' ?_ ?_
        · intro c hc hend
          simp only [reconciledState] at hc
          rcases List.mem_append.mp hc with hc | hc
          · obtain ⟨c0, hc0, hcc⟩ := List.mem_map.mp hc
            by_cases hcond : c0.index_id = idx ∧
                c0.symbol ∈ removedSymbolList s code snap ∧ c0.end_date = none
            · rw [← hcc] at hend
              simp [closeRow, hcond] at hend
            · have hcc0 : c = c0 := by rw [← hcc]; simp [closeRow, hcond]
              rw [hcc0] at hend ⊢
              exact le_trans (hopen c0 hc0 hend) hle
          · obtain ⟨-, -, -, -, -, -, -, -, heff, -, -, -, -, -⟩ :=
              mem_mkRows_fields hc
            rw [heff]
        · intro c hc
          simp only [reconciledState] at hc
          rcases List.mem_append.mp hc with hc | hc
          · obtain ⟨c0, hc0, hcc⟩ := List.mem_map.mp hc
            by_cases hcond : c0.index_id = idx ∧
                c0.symbol ∈ removedSymbolList s code snap ∧ c0.end_date = none
            · rw [← hcc]
              simp only [closeRow, if_pos hcond]
              simp only [rowMonotone, decide_eq_true_eq]
              exact le_trans (hopen c0 hc0 hcond.2.2) hle
            · rw [← hcc]
              simp only [closeRow, if_neg hcond]
              exact hmono c0 hc0
          · obtain ⟨-, -, -, -, -, -, -, -, -, hend, -, -, -, -⟩ :=
              mem_mkRows_fields hc
            simp [rowMonotone, hend]

/-- C3: after any sequence of register_index and update_constituents calls
starting from the empty store, at most one stored constituent interval row
per (index_id, symbol) pair has a null end_date. -/
theorem no_double_open_invariant (ops : List Op) :
    NoDoubleOpen (applyOps emptyState ops) :=
  (inv_ops ops).2

/-- Counterexample to C4 as stated: with arbitrary caller-supplied effective
dates, a row inserted at effective date 5 is closed at end date 3 < 5, so
some stored row violates end_date at least effective_date. -/
theorem monotone_history_counterexample :
    ¬ MonotoneRows (applyOps emptyState nonMonotoneOps) := by decide

/-- C4 (amended): if the effective dates of the update calls are
non-decreasing across the sequence, every row whose end_date is set
satisfies end_date at least the row's own effective_date. -/
theorem monotone_history_of_monotone_effs (ops : List Op)
    (h : List.Chain' (fun a b => a ≤ b) (effsOf ops)) :
    MonotoneRows (applyOps emptyState ops) := by
  apply monotone_aux ops emptyState 0
  · rw [List.chain'_cons']
    exact ⟨fun y _ => Nat.zero_le y, h⟩
  · intro c hc hend
    simp [emptyState] at hc
  · intro c hc
    simp [emptyState] at hc

/-- Witness for the amended C4 at a concrete monotone sequence. -/
theorem monotone_history_witness :
    List.Chain' (fun a b => a ≤ b) (effsOf monotoneOps) ∧
    MonotoneRows (applyOps emptyState monotoneOps) :=
  ⟨List.Chain'.cons (by omega) (List.chain'_singleton 5),
   monotone_history_of_monotone_effs monotoneOps
     (List.Chain'.cons (by omega) (List.chain'_singleton 5))⟩

/-- C1: after a successful update_constituents call, the current symbol set
equals the snapshot symbol set exactly; every added symbol gets a newly
inserted open interval with the call's effective_date and a null end_date;
every removed symbol's previously open interval is closed with
end_date = effective_date; and every other stored row, in particular every
row of an unchanged symbol, is untouched. -/
theorem reconcile_partition_correct {s : DBState} {code : String}
    {snap : List SnapshotRow} {ext eff now : Nat} {s' : DBState}
    {sum : ChangeSummary} (hwf : WF s)
    (h : update_constituents s code snap ext eff now = (s', Except.ok sum)) :
    currentSymbols s' code = newSymbols snap ∧
    (∀ sym ∈ addedSet s code snap, ∃ c ∈ s'.constituents,
      c ∉ s.constituents ∧ c.symbol = sym ∧ c.effective_date = eff ∧
      c.end_date = none) ∧
    (∀ c ∈ s.constituents, joinedByCode s.indices code c = true →
      c.symbol ∈ removedSet s code snap → c.end_date = none →
      { c with end_date := some eff } ∈ s'.constituents) ∧
    (∀ c ∈ s.constituents,
      ¬(joinedByCode s.indices code c = true ∧ c.symbol ∈ removedSet s code snap ∧
        c.end_date = none) → c ∈ s'.constituents) := by
  obtain ⟨idx, hidx, hconf, hs', hsum⟩ := update_ok_inv h
  subst hs'
  refine ⟨currentSymbols_reconciled hwf hidx, ?_, ?_, ?_⟩
  · intro sym hsym
    obtain ⟨r, hr, hrsym⟩ := toInsertList_symbol_iff.mpr hsym
    obtain ⟨c, hc, hcsym⟩ :=
      mkRows_mem_of_mem idx eff ext (snapshotSource snap)
        s.next_constituent_id hr
    obtain ⟨-, -, -, -, -, -, -, -, hceff, hcend, -, -, hcid, -⟩ :=
      mem_mkRows_fields hc
    refine ⟨c, ?_, ?_, by rw [hcsym, hrsym], hceff, hcend⟩
    · simp only [reconciledState]
      exact List.mem_append.mpr (Or.inr hc)
    · intro hcold
      exact absurd (hwf.2.2.2 c hcold) (by omega)
  · intro c hc hj hrem hend
    have hcidx : c.index_id = idx := by
      have heq := joinedByCode_eq_of_WF hwf hidx c
      rw [heq] at hj
      exact beq_iff_eq.mp hj
    have hcond : c.index_id = idx ∧
        c.symbol ∈ removedSymbolList s code snap ∧ c.end_date = none :=
      ⟨hcidx, mem_removedSymbolList.mpr hrem, hend⟩
    have hclose : closeRow idx (removedSymbolList s code snap) eff c =
        { c with end_date := some eff } := by
      simp only [closeRow, if_pos hcond]
    simp only [reconciledState]
    exact List.mem_append.mpr (Or.inl (List.mem_map.mpr ⟨c, hc, hclose⟩))
  · intro c hc hncond
    have hncond2 : ¬(c.index_id = idx ∧
        c.symbol ∈ removedSymbolList s code snap ∧ c.end_date = none) := by
      rintro ⟨h1, h2, h3⟩
      refine hncond ⟨?_, mem_removedSymbolList.mp h2, h3⟩
      rw [joinedByCode_eq_of_WF hwf hidx c]
      exact beq_iff_eq.mpr h1
    have hfix : closeRow idx (removedSymbolList s code snap) eff c = c := by
      simp only [closeRow, if_neg hncond2]
    simp only [reconciledState]
    exact List.mem_append.mpr (Or.inl (List.mem_map.mpr ⟨c, hc, hfix⟩))

/-- C2: a reconciliation that fails after any number k of statements of its
transaction (before the commit) leaves the observed stored state exactly the
pre-call state and returns no summary: no closure, no insertion and no
last_updated bump is persisted. -/
theorem reconcile_rollback_on_failure (k : Nat) (s : DBState) (code : String)
    (snap : List SnapshotRow) (ext eff now : Nat) :
    (update_constituents_at (some k) s code snap ext eff now).1 = s ∧
    ∀ sum, (update_constituents_at (some k) s code snap ext eff now).2 ≠
      Except.ok sum := by
  rw [update_constituents_at]
  cases hidx : get_index_id s code with
  | none => exact ⟨rfl, by simp⟩
  | some idx =>
    simp only
    by_cases hconf : conflictCheck s idx code snap eff = true
    · rw [if_pos hconf]
      exact ⟨rfl, by simp⟩
    · rw [if_neg hconf]
      exact ⟨foldl_txnApply_committed _ _, by simp⟩

/-- Witness for C1 at a concrete input: registering SPX and reconciling with
a one-row snapshot satisfies the hypotheses, and the partition conclusion
follows from the theorem. -/
theorem reconcile_partition_correct_witness :
    (WF regState ∧
      update_constituents regState "SPX" snapAAPL 10 1 11 =
        (oneMemberState, Except.ok
          { added_count := 1, removed_count := 0, unchanged_count := 0,
            added_symbols := ["AAPL"], removed_symbols := [] })) ∧
    (currentSymbols oneMemberState "SPX" = newSymbols snapAAPL ∧
     (∀ sym ∈ addedSet regState "SPX" snapAAPL,
        ∃ c ∈ oneMemberState.constituents,
          c ∉ regState.constituents ∧ c.symbol = sym ∧ c.effective_date = 1 ∧
          c.end_date = none) ∧
     (∀ c ∈ regState.constituents,
        joinedByCode regState.indices "SPX" c = true →
        c.symbol ∈ removedSet regState "SPX" snapAAPL → c.end_date = none →
        { c with end_date := some 1 } ∈ oneMemberState.constituents) ∧
     (∀ c ∈ regState.constituents,
        ¬(joinedByCode regState.indices "SPX" c = true ∧
          c.symbol ∈ removedSet regState "SPX" snapAAPL ∧ c.end_date = none) →
        c ∈ oneMemberState.constituents)) :=
  ⟨⟨by decide, by decide⟩,
   @reconcile_partition_correct regState "SPX" snapAAPL 10 1 11 oneMemberState
     { added_count := 1, removed_count := 0, unchanged_count := 0,
       added_symbols := ["AAPL"], removed_symbols := [] }
     (by decide) (by decide)⟩

/-- Counterexample to C5 as stated: repeating the same snapshot with the
same effective date does not leave the store unchanged, because the second
call still bumps the index row's last_updated timestamp. -/
theorem reconcile_idempotent_counterexample :
    (update_constituents oneMemberState "SPX" snapAAPL 20 1 21).1 ≠
      oneMemberState := by decide

/-- C5 (amended): a second update_constituents call with the same snapshot
and the same effective date succeeds with added_count = 0 and
removed_count = 0 and leaves every constituent interval row unchanged; the
only persisted difference is the index row's last_updated, set to the
second call's timestamp. -/
theorem reconcile_idempotent_amended {s : DBState} {code : String}
    {snap : List SnapshotRow} {ext1 eff now1 : Nat} {s₁ : DBState}
    {sum1 : ChangeSummary} (hwf : WF s)
    (h1 : update_constituents s code snap ext1 eff now1 = (s₁, Except.ok sum1))
    (ext2 now2 : Nat) :
    ∃ idx sum2,
      get_index_id s code = some idx ∧
      update_constituents s₁ code snap ext2 eff now2 =
        ({ s₁ with indices := s₁.indices.map (bumpRow idx now2) },
         Except.ok sum2) ∧
      sum2.added_count = 0 ∧ sum2.removed_count = 0 := by
  obtain ⟨idx, hidx, hconf, hs₁, hsum⟩ := update_ok_inv h1
  have hcur : currentSymbols s₁ code = newSymbols snap := by
    rw [hs₁]
    exact currentSymbols_reconciled hwf hidx
  have hmem : ∀ x, x ∈ currentSymbolList s₁ code ↔ x ∈ newSymbolList snap := by
    intro x
    have := Finset.ext_iff.mp hcur x
    rw [currentSymbols, newSymbols, List.mem_toFinset, List.mem_toFinset] at this
    exact this
  have hidx₁ : get_index_id s₁ code = some idx := by
    rw [hs₁, reconciledState]
    exact (get_index_id_map_bumpRow s idx now1 code _ _ _).trans hidx
  have htoIns : toInsertList s₁ code snap = [] := by
    rw [toInsertList, List.filter_eq_nil_iff]
    intro r hr
    simp only [decide_eq_true_eq, Decidable.not_not]
    exact (hmem r.symbol).mpr
      (mem_newSymbolList.mpr ⟨r, mem_firstRowPerSymbol_sub _ _ hr, rfl⟩)
  have hrem : removedSymbolList s₁ code snap = [] := by
    rw [removedSymbolList, List.filter_eq_nil_iff]
    intro x hx
    simp only [decide_eq_true_eq, Decidable.not_not]
    exact (hmem x).mp hx
  have hadd : addedSymbolList s₁ code snap = [] := by
    rw [addedSymbolList, List.filter_eq_nil_iff]
    intro x hx
    simp only [decide_eq_true_eq, Decidable.not_not]
    exact (hmem x).mpr hx
  have hconf₁ : conflictCheck s₁ idx code snap eff = false := by
    rw [conflictCheck, htoIns]
    rfl
  have hup := update_ok_of ext2 now2 hidx₁ hconf₁
  refine ⟨idx, reconcileSummary s₁ code snap, hidx, ?_, ?_, ?_⟩
  · rw [hup]
    have hstate : reconciledState s₁ idx code snap ext2 eff now2 =
        { s₁ with indices := s₁.indices.map (bumpRow idx now2) } := by
      rw [reconciledState, htoIns, hrem]
      have hclose : s₁.constituents.map (closeRow idx [] eff) =
          s₁.constituents :=
        List.map_id'' (fun c => by simp [closeRow]) _
      rw [hclose]
      simp [mkRows]
    rw [hstate]
  · simp [reconcileSummary, hadd]
  · simp [reconcileSummary, hrem]

/-- Witness for the amended C5: the hypotheses hold at the concrete
one-member store and the conclusion is obtained from the theorem there. -/
theorem reconcile_idempotent_witness :
    (WF regState ∧
      update_constituents regState "SPX" snapAAPL 10 1 11 =
        (oneMemberState, Except.ok
          { added_count := 1, removed_count := 0, unchanged_count := 0,
            added_symbols := ["AAPL"], removed_symbols := [] })) ∧
    (∃ idx sum2,
      get_index_id regState "SPX" = some idx ∧
      update_constituents oneMemberState "SPX" snapAAPL 20 1 21 =
        ({ oneMemberState with
            indices := oneMemberState.indices.map (bumpRow idx 21) },
         Except.ok sum2) ∧
      sum2.added_count = 0 ∧ sum2.removed_count = 0) :=
  ⟨⟨by decide, by decide⟩,
   @reconcile_idempotent_amended regState "SPX" snapAAPL 10 1 11 oneMemberState
     { added_count := 1, removed_count := 0, unchanged_count := 0,
       added_symbols := ["AAPL"], removed_symbols := [] }
     (by decide) (by decide) 20 21⟩

/-- Counterexample to C7 as stated: update_constituents performs no snapshot
validation; a snapshot with no rows does not abort the reconciliation but
succeeds, and it closes out the current member, leaving no current
constituents. -/
theorem validation_counterexample :
    (update_constituents oneMemberState "SPX" [] 20 2 21).2 =
      Except.ok { added_count := 0, removed_count := 1, unchanged_count := 0,
                  added_symbols := [], removed_symbols := ["AAPL"] } ∧
    currentSymbols oneMemberState "SPX" = {"AAPL"} ∧
    currentSymbols (update_constituents oneMemberState "SPX" [] 20 2 21).1
      "SPX" = ∅ := by
  exact ⟨by decide, by decide, by decide⟩

/-- C7 (amended): update_constituents never drops malformed rows and never
aborts on an empty snapshot; reconciling a registered index with a snapshot
containing no rows succeeds, reports every current member as removed, closes
each of their open intervals with end_date = effective_date and leaves the
current membership empty. -/
theorem empty_snapshot_closes_all {s : DBState} {code : String} {idx : Nat}
    (ext eff now : Nat) (hwf : WF s) (hidx : get_index_id s code = some idx) :
    ∃ s' sum, update_constituents s code [] ext eff now = (s', Except.ok sum) ∧
      currentSymbols s' code = ∅ ∧
      sum.removed_count = (currentSymbols s code).card ∧
      ∀ c ∈ s.constituents, joinedByCode s.indices code c = true →
        c.end_date = none →
        { c with end_date := some eff } ∈ s'.constituents := by
  have hconf : conflictCheck s idx code [] eff = false := rfl
  have hup := update_ok_of ext now hidx hconf
  refine ⟨reconciledState s idx code [] ext eff now,
    reconcileSummary s code [], hup, ?_, ?_, ?_⟩
  · rw [currentSymbols_reconciled hwf hidx]
    rfl
  · rw [reconcileSummary]
    simp only
    have hremall : removedSymbolList s code [] = currentSymbolList s code := by
      rw [removedSymbolList]
      apply List.filter_eq_self.mpr
      intro x hx
      simp [newSymbolList]
    rw [hremall, currentSymbols]
    exact (List.toFinset_card_of_nodup (List.nodup_dedup _)).symm
  · intro c hc hj hend
    have hcidx : c.index_id = idx := by
      have heq := joinedByCode_eq_of_WF hwf hidx c
      rw [heq] at hj
      exact beq_iff_eq.mp hj
    have hcur : c.symbol ∈ currentSymbolList s code :=
      mem_currentSymbolList.mpr ⟨c, hc, hj, hend, rfl⟩
    have hrem : c.symbol ∈ removedSymbolList s code [] := by
      rw [removedSymbolList]
      apply List.mem_filter.mpr
      refine ⟨hcur, ?_⟩
      simp [newSymbolList]
    have hcond : c.index_id = idx ∧
        c.symbol ∈ removedSymbolList s code [] ∧ c.end_date = none :=
      ⟨hcidx, hrem, hend⟩
    have hclose : closeRow idx (removedSymbolList s code []) eff c =
        { c with end_date := some eff } := by
      simp only [closeRow, if_pos hcond]
    rw [reconciledState]
    simp only
    exact List.mem_append.mpr (Or.inl (List.mem_map.mpr ⟨c, hc, hclose⟩))

/-- Witness for the amended C7 at the concrete one-member store. -/
theorem empty_snapshot_closes_all_witness :
    (WF oneMemberState ∧ get_index_id oneMemberState "SPX" = some 1) ∧
    (∃ s' sum,
      update_constituents oneMemberState "SPX" [] 20 2 21 =
        (s', Except.ok sum) ∧
      currentSymbols s' "SPX" = ∅ ∧
      sum.removed_count = (currentSymbols oneMemberState "SPX").card ∧
      ∀ c ∈ oneMemberState.constituents,
        joinedByCode oneMemberState.indices "SPX" c = true →
        c.end_date = none →
        { c with end_date := some 2 } ∈ s'.constituents) :=
  ⟨⟨by decide, by decide⟩,
   @empty_snapshot_closes_all oneMemberState "SPX" 1 20 2 21
     (by decide) (by decide)⟩

/-- C6: is_index_member returns true exactly when the symbol appears in the
as-of query get_historical_constituents for the same index code and date. -/
theorem is_member_iff_as_of (s : DBState) (sym code : String) (d : Nat) :
    is_index_member s sym code d = true ↔
      sym ∈ (get_historical_constituents s code d).map (fun c => c.symbol) := by
  rw [is_index_member, decide_eq_true_eq, List.countP_pos_iff]
  simp only [get_historical_constituents, List.mem_map, mem_sortOn,
    List.mem_filter, Bool.and_eq_true, beq_iff_eq]
  constructor
  · rintro ⟨c, hc, ⟨hj, hsym⟩, hd⟩
    exact ⟨c, ⟨hc, hj, hd⟩, hsym.symm⟩
  · rintro ⟨c, ⟨hc, hj, hd⟩, hsym⟩
    exact ⟨c, hc, ⟨hj, hsym.symm⟩, hd⟩

/-- C8: reconciling against an unregistered index code fails with the
distinguished not-registered error, registers nothing, and leaves the store
completely unchanged. -/
theorem unregistered_update_fails {s : DBState} {code : String}
    {snap : List SnapshotRow} {ext eff now : Nat}
    (h : get_index_id s code = none) :
    update_constituents s code snap ext eff now =
      (s, Except.error (DbErr.notRegistered code)) := by
  rw [update_constituents, update_constituents_at]
  simp only [h]

/-- Witness for C8 at a concrete input: an empty store has no index NOPE,
and reconciling against it errors and changes nothing. -/
theorem unregistered_update_fails_witness :
    get_index_id emptyState "NOPE" = none ∧
    update_constituents emptyState "NOPE" snapAAPL 0 0 0 =
      (emptyState, Except.error (DbErr.notRegistered "NOPE")) :=
  ⟨by decide, unregistered_update_fails (by decide)⟩

/-- C9: get_index_changes returns exactly the union of one added event per
interval whose effective_date lies in the range and one removed event per
interval whose end_date is set and lies in the range, sorted by date
descending; an interval added and removed inside the window yields two
events, one from each select. -/
theorem changes_union_sorted (s : DBState) (code : String)
    (startB endB : Option Nat) :
    (get_index_changes s code startB endB).Perm
      (addedEvents s code startB endB ++ removedEvents s code startB endB) ∧
    (∀ ev, ev ∈ get_index_changes s code startB endB ↔
      (∃ c ∈ s.constituents, joinedByCode s.indices code c = true ∧
        inRange startB endB c.effective_date = true ∧
        ev = { date := c.effective_date, change_type := ChangeType.added,
               symbol := c.symbol, company_name := c.company_name }) ∨
      (∃ c ∈ s.constituents, ∃ e, c.end_date = some e ∧
        joinedByCode s.indices code c = true ∧ inRange startB endB e = true ∧
        ev = { date := e, change_type := ChangeType.removed,
               symbol := c.symbol, company_name := c.company_name })) ∧
    (get_index_changes s code startB endB).Chain'
      (fun a b => b.date ≤ a.date) := by
  refine ⟨sortOn_perm _ _, ?_, ?_⟩
  · intro ev
    rw [get_index_changes, mem_sortOn, List.mem_append]
    constructor
    · rintro (hadd | hrem)
      · obtain ⟨c, hc, heq⟩ := List.mem_map.mp hadd
        obtain ⟨hcm, hp⟩ := List.mem_filter.mp hc
        rw [Bool.and_eq_true] at hp
        exact Or.inl ⟨c, hcm, hp.1, hp.2, heq.symm⟩
      · obtain ⟨c, hcm, hf⟩ := List.mem_filterMap.mp hrem
        cases hend : c.end_date with
        | none => rw [hend] at hf; simp at hf
        | some e =>
          rw [hend] at hf
          simp only at hf
          by_cases hp : (joinedByCode s.indices code c &&
              inRange startB endB e) = true
          · rw [if_pos hp] at hf
            rw [Bool.and_eq_true] at hp
            exact Or.inr ⟨c, hcm, e, hend, hp.1, hp.2,
              (Option.some.injEq _ _ ▸ hf).symm⟩
          · rw [if_neg hp] at hf
            simp at hf
    · rintro (⟨c, hcm, hj, hr, hev⟩ | ⟨c, hcm, e, hend, hj, hr, hev⟩)
      · refine Or.inl (List.mem_map.mpr ⟨c, ?_, hev.symm⟩)
        exact List.mem_filter.mpr ⟨hcm, by rw [Bool.and_eq_true]; exact ⟨hj, hr⟩⟩
      · refine Or.inr (List.mem_filterMap.mpr ⟨c, hcm, ?_⟩)
        rw [hend]
        simp only
        rw [if_pos (by rw [Bool.and_eq_true]; exact ⟨hj, hr⟩), hev]
  · have hchain := chain'_sortOn dateDesc
      (fun a b => by
        rcases Nat.le_total b.date a.date with h | h
        · exact Or.inl (by simp [dateDesc, h])
        · exact Or.inr (by simp [dateDesc, h]))
      (addedEvents s code startB endB ++ removedEvents s code startB endB)
    rw [get_index_changes]
    exact hchain.imp (fun {a b} hab => by simpa [dateDesc] using hab)

/-- C10: every row inserted by one update_constituents call is stamped with
the same data_source, taken from the source field of the snapshot's first
row with the fixed fallback string wikipedia when that field is absent or
the snapshot is empty; the source values of the other rows are ignored. -/
theorem inserted_rows_data_source {s : DBState} {code : String}
    {snap : List SnapshotRow} {ext eff now : Nat} {s' : DBState}
    {sum : ChangeSummary}
    (h : update_constituents s code snap ext eff now = (s', Except.ok sum)) :
    ∃ idx newRows,
      get_index_id s code = some idx ∧
      s'.constituents =
        s.constituents.map (closeRow idx (removedSymbolList s code snap) eff) ++
          newRows ∧
      ∀ c ∈ newRows, c.data_source =
        (match snap.head? with
         | some r => r.source.getD "wikipedia"
         | none => "wikipedia") := by
  obtain ⟨idx, hidx, -, hs', -⟩ := update_ok_inv h
  refine ⟨idx,
    mkRows s.next_constituent_id idx eff ext (snapshotSource snap)
      (toInsertList s code snap), hidx, by rw [hs']; rfl, ?_⟩
  intro c hc
  obtain ⟨-, -, -, -, -, -, -, -, -, -, hds, -, -, -⟩ := mem_mkRows_fields hc
  rw [hds]
  cases snap <;> rfl

/-- Witness for C10 at a concrete input: a two-row snapshot whose rows carry
different source tags; every inserted row is stamped with the first row's
tag. -/
theorem inserted_rows_data_source_witness :
    (update_constituents regState "SPX" snapTwo 10 1 11 =
      (twoMemberState, Except.ok
        { added_count := 2, removed_count := 0, unchanged_count := 0,
          added_symbols := ["AAPL", "MSFT"], removed_symbols := [] })) ∧
    (∃ idx newRows,
      get_index_id regState "SPX" = some idx ∧
      twoMemberState.constituents =
        regState.constituents.map
          (closeRow idx (removedSymbolList regState "SPX" snapTwo) 1) ++
          newRows ∧
      ∀ c ∈ newRows, c.data_source =
        (match snapTwo.head? with
         | some r => r.source.getD "wikipedia"
         | none => "wikipedia")) :=
  ⟨by decide,
   @inserted_rows_data_source regState "SPX" snapTwo 10 1 11 twoMemberState
     { added_count := 2, removed_count := 0, unchanged_count := 0,
       added_symbols := ["AAPL", "MSFT"], removed_symbols := [] }
     (by decide)⟩

end Findata

